import Mathlib

/-!
Verification of the `amem` package (associative memory enhanced
expectation maximization) against its design specification.

The development shallowly embeds the Python sources:

* `src/amem/core/memory.py`   — `MemoryStore` (store / retrieve / update / clear / size)
* `src/amem/core/em.py`       — `ExpectationMaximizer` (fit / expectation_step /
                                 maximization_step / log_likelihood)
* `src/amem/services/amem_service.py` — `AmemService` (train / predict /
                                 update_memory / get_memory_state)
* `src/amem/types.py`         — the immutable dataclasses.

Vectors are lists of rationals (idealizing IEEE-754 doubles by exact
arithmetic).  Python methods that mutate `self` are embedded as functions
`state → state × Option AmemError`; a raised exception is the `some` error
together with the state at the moment of the raise (all raises in the
sources happen before any mutation, which the error-handling theorems make
explicit).  Read-only methods return `Except AmemError _`.

Cosine similarity `1 - scipy.spatial.distance.cosine(q, k)` equals
`dot q k / sqrt (dot q q * dot k k)`.  Its exact value is irrational in
general, so each retrieved entry carries the exact pair
`(simNum, simDen) = (dot q k, dot q q * dot k k)` denoting the similarity
`simNum / √simDen`.  Ordering comparisons on similarities are performed on
the strictly monotone rational encoding `simOrdND` (sign-preserving square),
and the bridge lemma `simOrdND_le_iff` proves that this encoding orders
pairs exactly as the real-valued similarities do, so sortedness and argmax
statements are phrased against the genuine real similarity
`(simNum : ℝ) / Real.sqrt simDen`.

One dynamic-typing fault of the sources is modelled explicitly: the
concrete `MemoryStore.retrieve` builds plain tuples
`(key, value, similarity)` (memory.py line 84; the unit tests unpack them
as tuples), while `AmemService.predict` reads the dataclass attributes
`entry.similarity` / `entry.value` declared by `types.MemoryEntry`
(amem_service.py lines 114-115).  An attribute access on a tuple raises
`AttributeError`, so in the composed program the weighted-combination loop
of `predict` never completes: its nonempty-retrieval branch is embedded as
the error `AmemError.attributeError`.
-/

namespace Amem

/-- Vectors (numpy 1-D arrays) as lists of rationals. -/
abbrev Vec := List ℚ

/-- Matrices (numpy 2-D arrays) as lists of row vectors. -/
abbrev Mat := List Vec

/-- Dot product of two vectors. -/
def dot (u v : Vec) : ℚ := (List.zipWith (· * ·) u v).sum

/-- Elementwise vector addition (numpy `+` on same-shape arrays). -/
def vecAdd (u v : Vec) : Vec := List.zipWith (· + ·) u v

/-- Elementwise vector subtraction (numpy `-` on same-shape arrays). -/
def vecSub (u v : Vec) : Vec := List.zipWith (· - ·) u v

/-- Scalar times vector (numpy scalar broadcasting). -/
def smul (c : ℚ) (v : Vec) : Vec := v.map (c * ·)

/-- The all-zero vector `np.zeros(n)` / `np.zeros_like` of a length-`n` array. -/
def zeros (n : ℕ) : Vec := List.replicate n (0 : ℚ)

/-- Total element count `ndarray.size` of a matrix. -/
def npSize (data : Mat) : ℕ := (data.map List.length).sum

/-- The four error kinds of the design (`ValueError`s and `RuntimeError`s in
the sources): `DimensionMismatch`, `EmptyStore`, `InvalidInput`,
`NotTrained` — plus `attributeError`, which is not a designed error kind
but the Python `AttributeError` crash raised when `predict` reads
dataclass attributes off the plain tuples the concrete store returns. -/
inductive AmemError where
  | dimensionMismatch
  | emptyStore
  | invalidInput
  | notTrained
  | attributeError
deriving DecidableEq

/-- A retrieved entry, from `types.MemoryEntry` / the tuples built in
`MemoryStore.retrieve`: key, value, and the similarity
`1 - cosine(query, key)` represented exactly by the pair
`(simNum, simDen)` with value `simNum / √simDen`
(`simNum = dot query key`, `simDen = dot query query * dot key key`). -/
structure MemoryEntry where
  key : Vec
  value : Vec
  simNum : ℚ
  simDen : ℚ
deriving DecidableEq

/-- Sign-preserving square `x ↦ sign(x)·x²` applied to the similarity
`n / √d`: a strictly monotone rational encoding of the float similarity,
used as the comparison key wherever the source compares similarities
(sorting in `retrieve`, `np.argmax` in `update`).  Monotonicity with
respect to the real value `n / √d` is proved in `simOrdND_le_iff`. -/
def simOrdND (n d : ℚ) : ℚ := if 0 ≤ n then n ^ 2 / d else -(n ^ 2 / d)

/-- Comparison key of a retrieved entry (see `simOrdND`). -/
def simOrd (e : MemoryEntry) : ℚ := simOrdND e.simNum e.simDen

/-- The scipy cosine of the pair is `0/0 = NaN` exactly when
`simDen = (dot q q) * (dot k k)` is zero, i.e. when the query or the key is
the all-zero vector (then also `simNum = 0`).  The source applies no
fallback, so this NaN flows into the similarity used by sort/argmax. -/
def simIsNaN (e : MemoryEntry) : Bool := decide (e.simDen = 0)

/-- Entry list built by the first loop of `MemoryStore.retrieve`, in
insertion order: one entry per stored pair with the exact similarity data
for `1 - cosine(query, key)`. -/
def mkEntries (query : Vec) (keys values : List Vec) : List MemoryEntry :=
  List.zipWith (fun k v => ⟨k, v, dot query k, dot query query * dot k k⟩) keys values

/-- Insert an entry into a list so that, on lists sorted by strictly
descending-or-equal `simOrd`, the result stays sorted and the inserted
element precedes existing elements of equal key: together with `sortDesc`
this models Python's stable `list.sort(key=..., reverse=True)`. -/
def insertDesc (e : MemoryEntry) : List MemoryEntry → List MemoryEntry
  | [] => [e]
  | x :: xs => if simOrd e < simOrd x then x :: insertDesc e xs else e :: x :: xs

/-- Stable descending sort by similarity, modelling
`similarities.sort(key=lambda x: x[2], reverse=True)` (Timsort is stable,
and `reverse=True` preserves the original order of equal keys). -/
def sortDesc : List MemoryEntry → List MemoryEntry
  | [] => []
  | e :: es => insertDesc e (sortDesc es)

/-- First index of a maximal element (`np.argmax`); `0` on `[]`. -/
def argmaxIdx : List ℚ → ℕ
  | [] => 0
  | x :: xs => if xs.all (fun y => decide (y ≤ x)) then 0 else argmaxIdx xs + 1

/-- First index of a minimal element (`np.argmin`); `0` on `[]`. -/
def argminIdx : List ℚ → ℕ
  | [] => 0
  | x :: xs => if xs.all (fun y => decide (x ≤ y)) then 0 else argminIdx xs + 1

/-- The state of `memory.MemoryStore`: configured capacity and embedding
dimension, plus the two parallel lists `_keys` and `_values`. -/
structure MemoryStore where
  capacity : ℕ
  embedding_dim : ℕ
  keys : List Vec
  values : List Vec
deriving DecidableEq

/-- `MemoryStore.size` property: current number of stored entries. -/
def MemoryStore.size (m : MemoryStore) : ℕ := m.keys.length

/-- `MemoryStore.store`: validate both dimensions (raising before any
mutation), append the pair as newest, then pop the single oldest entry if
the capacity is now exceeded. -/
def MemoryStore.store (m : MemoryStore) (key value : Vec) :
    MemoryStore × Option AmemError :=
  if key.length ≠ m.embedding_dim then (m, some .dimensionMismatch)
  else if value.length ≠ m.embedding_dim then (m, some .dimensionMismatch)
  else
    let keys := m.keys ++ [key]
    let values := m.values ++ [value]
    if m.capacity < keys.length then
      ({ m with keys := keys.tail, values := values.tail }, none)
    else
      ({ m with keys := keys, values := values }, none)

/-- `MemoryStore.retrieve`: validate the query dimension, return `[]` on an
empty store, otherwise build the entry list in insertion order, sort it by
similarity descending (stable) and return the first `k` entries. -/
def MemoryStore.retrieve (m : MemoryStore) (query : Vec) (k : ℕ) :
    Except AmemError (List MemoryEntry) :=
  if query.length ≠ m.embedding_dim then .error .dimensionMismatch
  else if m.keys = [] then .ok []
  else .ok ((sortDesc (mkEntries query m.keys m.values)).take k)

/-- The similarity list
`[1.0 - cosine(key, stored_key) for stored_key in self._keys]` of
`MemoryStore.update`, one comparison key per stored key (see `simOrdND`). -/
def updateSims (key : Vec) (keys : List Vec) : List ℚ :=
  keys.map (fun sk => simOrdND (dot key sk) (dot key key * dot sk sk))

/-- `MemoryStore.update`: raise on an empty store (before any mutation),
compute the similarity of `key` to every stored key, and overwrite the
value at the first index of maximum similarity (`np.argmax`), leaving the
key of that slot untouched. -/
def MemoryStore.update (m : MemoryStore) (key value : Vec) :
    MemoryStore × Option AmemError :=
  if m.keys = [] then (m, some .emptyStore)
  else
    let best := argmaxIdx (updateSims key m.keys)
    ({ m with values := m.values.set best value }, none)

/-- `MemoryStore.clear`: drop every entry. -/
def MemoryStore.clear (m : MemoryStore) : MemoryStore :=
  { m with keys := [], values := [] }

/-- `types.ModelParameters`: the immutable EM result dataclass. -/
structure ModelParameters where
  means : List Vec
  covariances : List Mat
  weights : List ℚ
  converged : Bool
  n_iterations : ℕ
deriving DecidableEq

/-- `types.MemoryState`: the read-only memory snapshot dataclass. -/
structure MemoryState where
  size : ℕ
  capacity : ℕ
  embedding_dim : ℕ
  is_trained : Bool
deriving DecidableEq

/-- Model of the scipy/numpy numerics used by `em.py`:
`density mean cov` is `none` when `scipy.stats.multivariate_normal`
raises `numpy.linalg.LinAlgError` (singular covariance) and otherwise the
density function `rv.pdf`; `log` models `np.log` (only ever applied to
strictly positive arguments in the source).  The EM definitions are
parametric in this oracle, so theorems about them hold for the actual
Gaussian densities. -/
structure GaussOracle where
  density : Vec → Mat → Option (Vec → ℚ)
  log : ℚ → ℚ

/-- Configuration of `em.ExpectationMaximizer` (`max_iterations`,
`tolerance`). -/
structure EMConfig where
  max_iterations : ℕ
  tolerance : ℚ
deriving DecidableEq

/-- The `n × n` identity matrix (`np.eye`). -/
def identityMat (n : ℕ) : Mat :=
  (List.range n).map (fun i => (List.range n).map (fun j => if i = j then (1 : ℚ) else 0))

/-- Matrix addition (numpy `+` on same-shape 2-D arrays). -/
def matAdd (A B : Mat) : Mat := List.zipWith vecAdd A B

/-- Scalar times matrix. -/
def matSmul (c : ℚ) (A : Mat) : Mat := A.map (smul c)

/-- The all-zero `r × c` matrix. -/
def zerosMat (r c : ℕ) : Mat := List.replicate r (zeros c)

/-- Outer product `u vᵀ` of two vectors. -/
def outer (u v : Vec) : Mat := u.map (fun a => smul a v)

/-- Sum over the `k`-th column of a matrix, `responsibilities.sum(axis=0)[k]`. -/
def colSum (resp : Mat) (k : ℕ) : ℚ := (resp.map (fun row => row.getD k 0)).sum

/-- The raw (pre-normalization) responsibility row of one sample: for each
component `k`, `weights[k] * rv.pdf(x)`, or `0` for the whole column when
the density construction fails on a singular covariance (the caught
`LinAlgError`). -/
def rawResp (g : GaussOracle) (p : ModelParameters) (x : Vec) : List ℚ :=
  (List.range p.means.length).map (fun k =>
    match g.density (p.means.getD k []) (p.covariances.getD k []) with
    | some pdf => p.weights.getD k 0 * pdf x
    | none => 0)

/-- `ExpectationMaximizer.expectation_step`: the raw responsibilities
(`rawResp`) followed by row normalization in which rows with an
exactly-zero sum are divided by `1` (`row_sums[row_sums == 0] = 1`),
i.e. left untouched. -/
def expectation_step (g : GaussOracle) (data : Mat) (p : ModelParameters) : Mat :=
  let raw : Mat := data.map (rawResp g p)
  raw.map (fun row => if row.sum = 0 then row else row.map (· / row.sum))

/-- `ExpectationMaximizer.maximization_step`: column sums `n_k`, weights
`n_k / n_samples`, responsibility-weighted means for components with
`n_k > 0` (others left at the zero vector), and regularized
responsibility-weighted covariances `(weighted_diff.T @ diff)/n_k + 1e-6·I`
for components with `n_k > 0` (others reset to the identity).  Returns the
partial parameter record with `converged = false`, `n_iterations = 0`. -/
def maximization_step (data : Mat) (resp : Mat) : ModelParameters :=
  let n_samples : ℚ := (data.length : ℚ)
  let n_features := (data.headD []).length
  let ncomp := (resp.headD []).length
  let nk := (List.range ncomp).map (colSum resp)
  let weights := nk.map (· / n_samples)
  let means := (List.range ncomp).map (fun k =>
    if 0 < nk.getD k 0 then
      smul (nk.getD k 0)⁻¹
        ((List.zipWith (fun row x => smul (row.getD k 0) x) resp data).foldl vecAdd
          (zeros n_features))
    else zeros n_features)
  let covariances := (List.range ncomp).map (fun k =>
    if 0 < nk.getD k 0 then
      let mean := means.getD k []
      let scatter := (List.zipWith
        (fun row x => matSmul (row.getD k 0) (outer (vecSub x mean) (vecSub x mean)))
        resp data).foldl matAdd (zerosMat n_features n_features)
      matAdd (matSmul (nk.getD k 0)⁻¹ scatter)
        (matSmul (1 / 1000000 : ℚ) (identityMat n_features))
    else identityMat n_features)
  ⟨means, covariances, weights, false, 0⟩

/-- `ExpectationMaximizer.log_likelihood`: sum over samples of
`log(Σ_k weight[k]·pdf_k(x))`, where a component whose density construction
fails contributes nothing (`except: continue`) and a sample whose total
mixture likelihood is not strictly positive contributes `0`. -/
def log_likelihood (g : GaussOracle) (data : Mat) (p : ModelParameters) : ℚ :=
  let ncomp := p.means.length
  (data.map (fun x =>
    let sl := ((List.range ncomp).map (fun k =>
      match g.density (p.means.getD k []) (p.covariances.getD k []) with
      | some pdf => p.weights.getD k 0 * pdf x
      | none => 0)).sum
    if 0 < sl then g.log sl else 0)).sum

/-- The comparison `log_likelihood - prev_log_likelihood < tolerance` of the
`fit` loop.  `prev = none` models the initial `prev_log_likelihood = -np.inf`:
a finite float minus `-inf` is `+inf`, which is never `< tolerance`, so the
test is false on the first iteration. -/
def llImproveLt (prev : Option ℚ) (ll tol : ℚ) : Bool :=
  match prev with
  | none => false
  | some p => decide (ll - p < tol)

/-- The `for iteration in range(max_iterations)` loop of
`ExpectationMaximizer.fit`, with the remaining iteration count as fuel and
the 0-based `iteration` counter carried explicitly.  Each pass runs the
E-step on the current parameters, the M-step, computes the new
log-likelihood, and returns converged parameters with
`n_iterations = iteration + 1` when the improvement test fires; exhausting
the fuel returns the last parameters with `converged = false` and the
final counter value (`= max_iterations`). -/
def fitLoop (g : GaussOracle) (tol : ℚ) (data : Mat) :
    ℕ → List Vec × List Mat × List ℚ → Option ℚ → ℕ → ModelParameters
  | 0, T, _, iteration => ⟨T.1, T.2.1, T.2.2, false, iteration⟩
  | fuel + 1, T, prevLL, iteration =>
    let current : ModelParameters := ⟨T.1, T.2.1, T.2.2, false, iteration⟩
    let resp := expectation_step g data current
    let newp := maximization_step data resp
    let updated : ModelParameters :=
      ⟨newp.means, newp.covariances, newp.weights, false, iteration + 1⟩
    let ll := log_likelihood g data updated
    if llImproveLt prevLL ll tol then
      ⟨newp.means, newp.covariances, newp.weights, true, iteration + 1⟩
    else
      fitLoop g tol data fuel (newp.means, newp.covariances, newp.weights) (some ll)
        (iteration + 1)

/-- The initial EM state of `fit`: the drawn means, one identity covariance
per component, and uniform weights `1/n_components`. -/
def initTriple (initMeans : List Vec) (nn n_features : ℕ) :
    List Vec × List Mat × List ℚ :=
  (initMeans, (List.range nn).map (fun _ => identityMat n_features),
    List.replicate nn ((nn : ℚ))⁻¹)

/-- `ExpectationMaximizer.fit`: reject empty data (`data.size == 0`) and
non-positive component counts, then run the EM loop from randomly drawn
initial means (`np.random.randn(n_components, n_features)`, passed in
explicitly as `initMeans` because the source uses an unseeded process-global
generator), identity covariances and uniform weights. -/
def ExpectationMaximizer.fit (g : GaussOracle) (cfg : EMConfig) (initMeans : List Vec)
    (data : Mat) (n_components : ℤ) : Except AmemError ModelParameters :=
  if npSize data = 0 then .error .invalidInput
  else if n_components ≤ 0 then .error .invalidInput
  else
    .ok (fitLoop g cfg.tolerance data cfg.max_iterations
      (initTriple initMeans n_components.toNat (data.headD []).length) none 0)

/-- One EM iteration on a (means, covariances, weights) triple: E-step then
M-step, exactly as the body of the `fit` loop transforms its running
state (`expectation_step` and `maximization_step` read only the three
sequences, so the bookkeeping fields are irrelevant). -/
def emStepT (g : GaussOracle) (data : Mat) (T : List Vec × List Mat × List ℚ) :
    List Vec × List Mat × List ℚ :=
  let p := maximization_step data (expectation_step g data ⟨T.1, T.2.1, T.2.2, false, 0⟩)
  (p.means, p.covariances, p.weights)

/-- The parameter triple after `t` EM iterations from a given start: the
deterministic trajectory the `fit` loop walks (independently of where it
stops). -/
def tripleAt (g : GaussOracle) (data : Mat) (init : List Vec × List Mat × List ℚ) :
    ℕ → List Vec × List Mat × List ℚ
  | 0 => init
  | t + 1 => emStepT g data (tripleAt g data init t)

/-- The log-likelihood `fit` computes at the end of iteration `t ≥ 1`
(0-based Python iteration `t - 1`). -/
def llAt (g : GaussOracle) (data : Mat) (init : List Vec × List Mat × List ℚ) (t : ℕ) : ℚ :=
  log_likelihood g data
    ⟨(tripleAt g data init t).1, (tripleAt g data init t).2.1,
      (tripleAt g data init t).2.2, false, 0⟩

/-- The stopping test of `fit` fires at iteration count `t` (1-based, i.e.
`n_iterations = t`) exactly when `t ≥ 2` and the `t`-th log-likelihood
improves on the `(t-1)`-th by less than the tolerance; at `t = 1` the
previous value is `-inf` and the test never fires. -/
abbrev triggerAt (g : GaussOracle) (data : Mat) (init : List Vec × List Mat × List ℚ)
    (tol : ℚ) (t : ℕ) : Prop :=
  2 ≤ t ∧ llAt g data init t - llAt g data init (t - 1) < tol

/-- First `t` in `[start, start + fuel)` at which the stopping test fires,
if any. -/
def firstTrigger (g : GaussOracle) (data : Mat) (init : List Vec × List Mat × List ℚ)
    (tol : ℚ) : ℕ → ℕ → Option ℕ
  | _, 0 => none
  | start, fuel + 1 =>
    if triggerAt g data init tol start then some start
    else firstTrigger g data init tol (start + 1) fuel

/-- State of `amem_service.AmemService`: the injected memory store plus the
mutable `_is_trained` flag and most recent `_model_parameters`. -/
structure AmemService where
  memory_store : MemoryStore
  is_trained : Bool
  model_parameters : Option ModelParameters
deriving DecidableEq

/-- Sequential `store` calls (the seeding loop of `train` and the loop of
`update_memory`): a raise aborts the remainder of the loop, leaving the
mutations already performed in place. -/
def storeSeq (m : MemoryStore) : List (Vec × Vec) → MemoryStore × Option AmemError
  | [] => (m, none)
  | (k, v) :: rest =>
    match m.store k v with
    | (m2, none) => storeSeq m2 rest
    | (m2, some e) => (m2, some e)

/-- `AmemService.train`: validate (`data.size == 0`, `n_components <= 0`)
before anything else, fit the EM model, assign `_model_parameters`, clear
the memory and seed it with `(mean, mean * weight)` for every fitted
component, and finally set `_is_trained`. -/
def AmemService.train (g : GaussOracle) (cfg : EMConfig) (initMeans : List Vec)
    (s : AmemService) (data : Mat) (n_components : ℤ) :
    AmemService × Option AmemError :=
  if npSize data = 0 then (s, some .invalidInput)
  else if n_components ≤ 0 then (s, some .invalidInput)
  else
    match ExpectationMaximizer.fit g cfg initMeans data n_components with
    | .error e => (s, some e)
    | .ok params =>
      let s2 := { s with model_parameters := some params }
      let cleared := s2.memory_store.clear
      let seeds := params.means.zip (List.zipWith (fun mean w => smul w mean)
        params.means params.weights)
      match storeSeq cleared seeds with
      | (m2, none) =>
        ({ s2 with memory_store := m2, is_trained := true }, none)
      | (m2, some e) => ({ s2 with memory_store := m2 }, some e)

/-- `AmemService.predict`: raise `NotTrained` before training (or with no
parameters held), retrieve the top 3 entries, and fall back to the fitted
mean closest to the query in Euclidean norm when memory is empty (the
fallback compares squared Euclidean distances, a strictly monotone encoding
of `np.linalg.norm(query - mean)`, so `np.argmin` picks the same first
index).  On a nonempty retrieval the body executes the combination loop,
whose first statement reads `entry.similarity`; the concrete
`MemoryStore.retrieve` returns plain tuples `(key, value, similarity)`
(memory.py line 84), which have none of the `types.MemoryEntry` dataclass
attributes, so that very first access raises `AttributeError`: the loop
never completes and `predict` cannot return a prediction from nonempty
memory.  The branch is therefore embedded as the `attributeError` crash. -/
def AmemService.predict (s : AmemService) (query : Vec) :
    Except AmemError Vec :=
  if s.is_trained = false then .error .notTrained
  else
    match s.model_parameters with
    | none => .error .notTrained
    | some params =>
      match s.memory_store.retrieve query 3 with
      | .error e => .error e
      | .ok [] =>
        let dists := params.means.map (fun mean => dot (vecSub query mean) (vecSub query mean))
        .ok (params.means.getD (argminIdx dists) [])
      | .ok (_ :: _) => .error .attributeError

/-- `AmemService.update_memory`: raise `NotTrained` before training,
otherwise store every row of `new_data` as both key and value. -/
def AmemService.update_memory (s : AmemService) (new_data : Mat) :
    AmemService × Option AmemError :=
  if s.is_trained = false then (s, some .notTrained)
  else
    match storeSeq s.memory_store (new_data.map (fun p => (p, p))) with
    | (m2, err) => ({ s with memory_store := m2 }, err)

/-- `AmemService.get_memory_state`: the source returns the store's current
size and the service's `_is_trained` flag, but hard-codes
`capacity=1000` and `embedding_dim=128` (its own comment reads
`TODO: Extract capacity and embedding_dim from memory store`). -/
def AmemService.get_memory_state (s : AmemService) : MemoryState :=
  ⟨s.memory_store.size, 1000, 128, s.is_trained⟩

/-- A trivial concrete numerics oracle (constant density `1`, `log = id`)
used to instantiate hypotheses of the EM theorems on concrete inputs. -/
def constOracle : GaussOracle := ⟨fun _ _ => some fun _ => 1, id⟩

/-- A sequence of `store` calls, each keeping the state of the previous one
(the loops in `train`/`update_memory`, and the repeated-store scenarios of
the capacity property); the error components are examined separately. -/
def storeAll (m : MemoryStore) (ps : List (Vec × Vec)) : MemoryStore :=
  ps.foldl (fun s p => (s.store p.1 p.2).1) m

/-! ### Supporting lemmas -/

theorem storeAll_append (m : MemoryStore) (ps : List (Vec × Vec)) (p : Vec × Vec) :
    storeAll m (ps ++ [p]) = ((storeAll m ps).store p.1 p.2).1 := by
  simp [storeAll, List.foldl_append]

theorem tail_append_singleton {α : Type} (l : List α) (x : α) (h : l ≠ []) :
    (l ++ [x]).tail = l.tail ++ [x] := by
  cases l with
  | nil => exact absurd rfl h
  | cons a as => simp

/-- Closed form for a sequence of valid `store` calls starting from an empty
store: the keys and values are the stored ones with the overflow dropped
from the front (FIFO). -/
theorem storeAll_eq (cap dim : ℕ) (hcap : 1 ≤ cap) (ps : List (Vec × Vec))
    (hdims : ∀ p ∈ ps, (p.1 : Vec).length = dim ∧ (p.2 : Vec).length = dim) :
    storeAll ⟨cap, dim, [], []⟩ ps =
      ⟨cap, dim, (ps.map Prod.fst).drop (ps.length - cap),
        (ps.map Prod.snd).drop (ps.length - cap)⟩ := by
  induction ps using List.reverseRecOn with
  | nil => simp [storeAll]
  | append_singleton ps p ih =>
    have hps : ∀ q ∈ ps, (q.1 : Vec).length = dim ∧ (q.2 : Vec).length = dim :=
      fun q hq => hdims q (by simp [hq])
    have hp : (p.1 : Vec).length = dim ∧ (p.2 : Vec).length = dim :=
      hdims p (by simp)
    rw [storeAll_append, ih hps]
    set L := ps.length with hL
    have hlen1 : ((ps.map Prod.fst).drop (L - cap)).length = L - (L - cap) := by
      simp [hL]
    have hlen2 : ((ps.map Prod.snd).drop (L - cap)).length = L - (L - cap) := by
      simp [hL]
    by_cases hLc : cap ≤ L
    · have h1 : L - (L - cap) = cap := by omega
      have hne : (ps.map Prod.fst).drop (L - cap) ≠ [] := by
        intro h
        rw [h] at hlen1
        simp at hlen1
        omega
      have hne2 : (ps.map Prod.snd).drop (L - cap) ≠ [] := by
        intro h
        rw [h] at hlen2
        simp at hlen2
        omega
      have hcond : cap < ((ps.map Prod.fst).drop (L - cap) ++ [p.1]).length := by
        simp [hlen1, h1]
      simp only [MemoryStore.store, hp.1, hp.2]
      rw [if_neg (by simp), if_neg (by simp)]
      simp only [hcond, if_pos]
      rw [tail_append_singleton _ _ hne, tail_append_singleton _ _ hne2]
      have hd1 : ((ps.map Prod.fst).drop (L - cap)).tail =
          (ps.map Prod.fst).drop (L + 1 - cap) := by
        rw [List.tail_drop]
        congr 1
        omega
      have hd2 : ((ps.map Prod.snd).drop (L - cap)).tail =
          (ps.map Prod.snd).drop (L + 1 - cap) := by
        rw [List.tail_drop]
        congr 1
        omega
      have hzero : ps.length + 1 - cap - ps.length = 0 := by omega
      have hdrop1 : ((ps ++ [p]).map Prod.fst).drop ((ps ++ [p]).length - cap) =
          (ps.map Prod.fst).drop (L + 1 - cap) ++ [p.1] := by
        rw [List.map_append, List.drop_append_eq_append_drop]
        simp [hL, hzero]
      have hdrop2 : ((ps ++ [p]).map Prod.snd).drop ((ps ++ [p]).length - cap) =
          (ps.map Prod.snd).drop (L + 1 - cap) ++ [p.2] := by
        rw [List.map_append, List.drop_append_eq_append_drop]
        simp [hL, hzero]
      simp only [List.length_append, List.length_cons, hL] at hdrop1 hdrop2 ⊢
      rw [hdrop1, hdrop2, hd1, hd2]
    · have h0 : L - cap = 0 := by omega
      have hcond : ¬ cap < ((ps.map Prod.fst).drop (L - cap) ++ [p.1]).length := by
        simp [hlen1, h0]
        omega
      simp only [MemoryStore.store, hp.1, hp.2]
      rw [if_neg (by simp), if_neg (by simp)]
      simp only [hcond, if_neg, if_false]
      have h0' : L + 1 - cap = 0 := by omega
      simp [h0, h0', hL]

theorem insertDesc_perm (e : MemoryEntry) (l : List MemoryEntry) :
    List.Perm (insertDesc e l) (e :: l) := by
  induction l with
  | nil => simp [insertDesc]
  | cons x xs ih =>
    simp only [insertDesc]
    split
    · exact (ih.cons x).trans (List.Perm.swap e x xs)
    · exact List.Perm.refl _

theorem sortDesc_perm (l : List MemoryEntry) : List.Perm (sortDesc l) l := by
  induction l with
  | nil => simp [sortDesc]
  | cons e es ih => exact (insertDesc_perm e (sortDesc es)).trans (ih.cons e)

theorem insertDesc_pairwise (e : MemoryEntry) (l : List MemoryEntry)
    (h : l.Pairwise (fun a b => simOrd b ≤ simOrd a)) :
    (insertDesc e l).Pairwise (fun a b => simOrd b ≤ simOrd a) := by
  induction l with
  | nil => simp [insertDesc]
  | cons x xs ih =>
    rw [List.pairwise_cons] at h
    simp only [insertDesc]
    split
    · rename_i hc
      rw [List.pairwise_cons]
      refine ⟨?_, ih h.2⟩
      intro y hy
      rw [(insertDesc_perm e xs).mem_iff, List.mem_cons] at hy
      rcases hy with rfl | hy
      · exact le_of_lt hc
      · exact h.1 y hy
    · rename_i hc
      push_neg at hc
      rw [List.pairwise_cons]
      refine ⟨?_, List.pairwise_cons.mpr h⟩
      intro y hy
      rcases List.mem_cons.mp hy with rfl | hy
      · exact hc
      · exact le_trans (h.1 y hy) hc

theorem sortDesc_pairwise (l : List MemoryEntry) :
    (sortDesc l).Pairwise (fun a b => simOrd b ≤ simOrd a) := by
  induction l with
  | nil => simp [sortDesc]
  | cons e es ih => exact insertDesc_pairwise e (sortDesc es) ih

/-- Inserting an entry with the stable-descending insertion places it, among
entries of equal comparison key, in front of none that precede it in the
scan order: filtering any key class commutes with insertion. -/
theorem insertDesc_filter (e : MemoryEntry) (l : List MemoryEntry) (s : ℚ) :
    (insertDesc e l).filter (fun x => decide (simOrd x = s)) =
      if simOrd e = s then e :: l.filter (fun x => decide (simOrd x = s))
      else l.filter (fun x => decide (simOrd x = s)) := by
  induction l with
  | nil =>
    by_cases hs : simOrd e = s
    · simp [insertDesc, List.filter_cons, hs]
    · simp [insertDesc, List.filter_cons, hs]
  | cons x xs ih =>
    simp only [insertDesc]
    split
    · rename_i hc
      by_cases hx : simOrd x = s
      · have hes : ¬ simOrd e = s := by
          intro hes
          rw [hes, hx] at hc
          exact lt_irrefl s hc
        simp [List.filter_cons, hx, hes, ih]
      · simp [List.filter_cons, hx, ih]
    · by_cases hes : simOrd e = s
      · simp [List.filter_cons, hes]
      · simp [List.filter_cons, hes]

/-- Stability of the sort: within every similarity-key class the sorted
output preserves the original (insertion) order. -/
theorem sortDesc_filter (l : List MemoryEntry) (s : ℚ) :
    (sortDesc l).filter (fun x => decide (simOrd x = s)) =
      l.filter (fun x => decide (simOrd x = s)) := by
  induction l with
  | nil => simp [sortDesc]
  | cons e es ih =>
    simp only [sortDesc, insertDesc_filter, ih, List.filter_cons]
    split <;> rename_i hs
    · simp [hs]
    · simp [hs]

theorem sqLeSqIff (a b : ℝ) (ha : 0 ≤ a) (hb : 0 ≤ b) : a ^ 2 ≤ b ^ 2 ↔ a ≤ b := by
  constructor
  · intro h
    nlinarith
  · intro h
    nlinarith

/-- Bridge between the rational comparison key `simOrdND n d` (the
sign-preserving square used by the embedded sort/argmax) and the real
similarity value `n / √d` it encodes: for positive denominators the key
order coincides with the similarity order. -/
theorem simOrdND_le_iff (n1 d1 n2 d2 : ℚ) (h1 : 0 < d1) (h2 : 0 < d2) :
    simOrdND n1 d1 ≤ simOrdND n2 d2 ↔
      (n1 : ℝ) / Real.sqrt (d1 : ℝ) ≤ (n2 : ℝ) / Real.sqrt (d2 : ℝ) := by
  have hd1R : (0 : ℝ) < (d1 : ℝ) := by exact_mod_cast h1
  have hd2R : (0 : ℝ) < (d2 : ℝ) := by exact_mod_cast h2
  have hs1 : 0 < Real.sqrt (d1 : ℝ) := Real.sqrt_pos.mpr hd1R
  have hs2 : 0 < Real.sqrt (d2 : ℝ) := Real.sqrt_pos.mpr hd2R
  have hsq1 : Real.sqrt (d1 : ℝ) ^ 2 = (d1 : ℝ) := Real.sq_sqrt hd1R.le
  have hsq2 : Real.sqrt (d2 : ℝ) ^ 2 = (d2 : ℝ) := Real.sq_sqrt hd2R.le
  rw [div_le_div_iff hs1 hs2]
  unfold simOrdND
  by_cases hn1 : 0 ≤ n1 <;> by_cases hn2 : 0 ≤ n2
  · have hn1R : (0 : ℝ) ≤ (n1 : ℝ) := by exact_mod_cast hn1
    have hn2R : (0 : ℝ) ≤ (n2 : ℝ) := by exact_mod_cast hn2
    rw [if_pos hn1, if_pos hn2, div_le_div_iff h1 h2,
      ← sqLeSqIff ((n1 : ℝ) * Real.sqrt (d2 : ℝ)) ((n2 : ℝ) * Real.sqrt (d1 : ℝ))
        (mul_nonneg hn1R hs2.le) (mul_nonneg hn2R hs1.le),
      mul_pow, mul_pow, hsq1, hsq2]
    constructor <;> intro h <;> exact_mod_cast h
  · push_neg at hn2
    have hn1R : (0 : ℝ) ≤ (n1 : ℝ) := by exact_mod_cast hn1
    have hn2R : (n2 : ℝ) < 0 := by exact_mod_cast hn2
    rw [if_pos hn1, if_neg (not_le.mpr hn2)]
    apply iff_of_false
    · intro h
      have ha : (0 : ℚ) ≤ n1 ^ 2 / d1 := by positivity
      have hb : 0 < n2 ^ 2 / d2 := by
        apply div_pos _ h2
        nlinarith
      linarith
    · intro h
      nlinarith [mul_nonneg hn1R hs2.le, mul_neg_of_neg_of_pos hn2R hs1]
  · push_neg at hn1
    have hn1R : (n1 : ℝ) < 0 := by exact_mod_cast hn1
    have hn2R : (0 : ℝ) ≤ (n2 : ℝ) := by exact_mod_cast hn2
    rw [if_neg (not_le.mpr hn1), if_pos hn2]
    apply iff_of_true
    · have ha : (0 : ℚ) ≤ n1 ^ 2 / d1 := by positivity
      have hb : (0 : ℚ) ≤ n2 ^ 2 / d2 := by positivity
      linarith
    · nlinarith [mul_nonneg hn2R hs1.le, mul_neg_of_neg_of_pos hn1R hs2]
  · push_neg at hn1 hn2
    have hn1R : (n1 : ℝ) < 0 := by exact_mod_cast hn1
    have hn2R : (n2 : ℝ) < 0 := by exact_mod_cast hn2
    rw [if_neg (not_le.mpr hn1), if_neg (not_le.mpr hn2), neg_le_neg_iff,
      div_le_div_iff h2 h1]
    have hiff : (n1 : ℝ) * Real.sqrt (d2 : ℝ) ≤ (n2 : ℝ) * Real.sqrt (d1 : ℝ) ↔
        (-(n2 : ℝ)) * Real.sqrt (d1 : ℝ) ≤ (-(n1 : ℝ)) * Real.sqrt (d2 : ℝ) := by
      constructor <;> intro h <;> nlinarith
    rw [hiff, ← sqLeSqIff ((-(n2 : ℝ)) * Real.sqrt (d1 : ℝ))
        ((-(n1 : ℝ)) * Real.sqrt (d2 : ℝ))
        (mul_nonneg (by linarith) hs1.le) (mul_nonneg (by linarith) hs2.le),
      mul_pow, mul_pow, neg_sq, neg_sq, hsq1, hsq2]
    constructor <;> intro h <;> exact_mod_cast h

theorem simOrdND_lt_iff (n1 d1 n2 d2 : ℚ) (h1 : 0 < d1) (h2 : 0 < d2) :
    simOrdND n1 d1 < simOrdND n2 d2 ↔
      (n1 : ℝ) / Real.sqrt (d1 : ℝ) < (n2 : ℝ) / Real.sqrt (d2 : ℝ) := by
  rw [← not_le, ← not_le, simOrdND_le_iff n2 d2 n1 d1 h2 h1]

theorem simOrdND_eq_iff (n1 d1 n2 d2 : ℚ) (h1 : 0 < d1) (h2 : 0 < d2) :
    simOrdND n1 d1 = simOrdND n2 d2 ↔
      (n1 : ℝ) / Real.sqrt (d1 : ℝ) = (n2 : ℝ) / Real.sqrt (d2 : ℝ) := by
  rw [le_antisymm_iff, le_antisymm_iff, simOrdND_le_iff n1 d1 n2 d2 h1 h2,
    simOrdND_le_iff n2 d2 n1 d1 h2 h1]

/-- The dot product of a vector with itself is a sum of squares. -/
theorem dot_self_nonneg (v : Vec) : 0 ≤ dot v v := by
  induction v with
  | nil => simp [dot]
  | cons x xs ih =>
    simp only [dot, List.zipWith_cons_cons, List.sum_cons] at ih ⊢
    nlinarith

theorem mkEntries_mem (query : Vec) (ks vs : List Vec) (e : MemoryEntry)
    (he : e ∈ mkEntries query ks vs) :
    e.key ∈ ks ∧ e.simNum = dot query e.key ∧
      e.simDen = dot query query * dot e.key e.key := by
  induction ks generalizing vs with
  | nil => simp [mkEntries] at he
  | cons x xs ih =>
    cases vs with
    | nil => simp [mkEntries] at he
    | cons v vt =>
      simp only [mkEntries, List.zipWith_cons_cons, List.mem_cons] at he
      rcases he with rfl | he
      · exact ⟨List.mem_cons_self _ _, rfl, rfl⟩
      · have h := ih vt he
        exact ⟨List.mem_cons_of_mem _ h.1, h.2⟩

theorem mkEntries_map (query : Vec) (ks vs : List Vec) :
    (mkEntries query ks vs).map (fun e => (e.key, e.value)) = ks.zip vs := by
  induction ks generalizing vs with
  | nil => simp [mkEntries]
  | cons x xs ih =>
    cases vs with
    | nil => simp [mkEntries]
    | cons v vt =>
      have h := ih vt
      simp only [mkEntries] at h
      simp [mkEntries, List.zipWith_cons_cons, h]

theorem mkEntries_length (query : Vec) (ks vs : List Vec) :
    (mkEntries query ks vs).length = min ks.length vs.length := by
  simp [mkEntries]

theorem argmaxIdx_lt_length (l : List ℚ) (h : l ≠ []) : argmaxIdx l < l.length := by
  induction l with
  | nil => exact absurd rfl h
  | cons x xs ih =>
    simp only [argmaxIdx]
    split
    · simp
    · rename_i hall
      have hxs : xs ≠ [] := by
        intro hnil
        rw [hnil] at hall
        simp at hall
      simpa using Nat.succ_lt_succ (ih hxs)

theorem argmaxIdx_le (l : List ℚ) (j : ℕ) (hj : j < l.length) :
    l.getD j 0 ≤ l.getD (argmaxIdx l) 0 := by
  induction l generalizing j with
  | nil => simp at hj
  | cons x xs ih =>
    simp only [argmaxIdx]
    split
    · rename_i hall
      rw [List.all_eq_true] at hall
      cases j with
      | zero => simp
      | succ j =>
        simp only [List.getD_cons_succ, List.getD_cons_zero]
        have hjx : j < xs.length := by simpa using hj
        have hmem : xs.getD j 0 ∈ xs := by
          rw [List.getD_eq_getElem xs 0 hjx]
          exact List.getElem_mem hjx
        exact of_decide_eq_true (hall _ hmem)
    · rename_i hall
      have hex : ∃ y ∈ xs, x < y := by
        simp only [List.all_eq_true, decide_eq_true_eq] at hall
        push_neg at hall
        exact hall
      obtain ⟨y, hy, hyx⟩ := hex
      obtain ⟨jy, hjy, hgy⟩ := List.getElem_of_mem hy
      have hle := ih jy hjy
      rw [List.getD_eq_getElem xs 0 hjy, hgy] at hle
      cases j with
      | zero =>
        simp only [List.getD_cons_zero, List.getD_cons_succ]
        linarith
      | succ j =>
        simp only [List.getD_cons_succ]
        exact ih j (by simpa using hj)

theorem lt_argmaxIdx_getD (x : ℚ) (xs : List ℚ)
    (hall : ¬ xs.all (fun y => decide (y ≤ x)) = true) :
    x < xs.getD (argmaxIdx xs) 0 := by
  have hex : ∃ y ∈ xs, x < y := by
    simp only [List.all_eq_true, decide_eq_true_eq] at hall
    push_neg at hall
    exact hall
  obtain ⟨y, hy, hyx⟩ := hex
  obtain ⟨jy, hjy, hgy⟩ := List.getElem_of_mem hy
  have hle := argmaxIdx_le xs jy hjy
  rw [List.getD_eq_getElem xs 0 hjy, hgy] at hle
  linarith

theorem argmaxIdx_first (l : List ℚ) (j : ℕ) (hj : j < argmaxIdx l) :
    l.getD j 0 < l.getD (argmaxIdx l) 0 := by
  induction l generalizing j with
  | nil => simp [argmaxIdx] at hj
  | cons x xs ih =>
    by_cases hall : xs.all (fun y => decide (y ≤ x)) = true
    · rw [argmaxIdx, if_pos hall] at hj
      omega
    · rw [argmaxIdx, if_neg hall] at hj ⊢
      cases j with
      | zero =>
        simp only [List.getD_cons_zero, List.getD_cons_succ]
        exact lt_argmaxIdx_getD x xs hall
      | succ j =>
        simp only [List.getD_cons_succ]
        exact ih j (by omega)

/-! ### Claim theorems -/

/-- Claim C2 (code bug): `get_memory_state` is supposed to report the
memory store's actually configured capacity and embedding dimension, but
the source returns the hard-coded constants `1000` and `128`; on a store
configured with capacity `5` and embedding dimension `2` the snapshot
disagrees with the configuration (size and `is_trained` are reported
correctly). -/
theorem c2_get_memory_state_hardcoded :
    AmemService.get_memory_state ⟨⟨5, 2, [], []⟩, false, none⟩ = ⟨0, 1000, 128, false⟩ ∧
    (AmemService.get_memory_state ⟨⟨5, 2, [], []⟩, false, none⟩).capacity ≠
      (⟨5, 2, [], []⟩ : MemoryStore).capacity ∧
    (AmemService.get_memory_state ⟨⟨5, 2, [], []⟩, false, none⟩).embedding_dim ≠
      (⟨5, 2, [], []⟩ : MemoryStore).embedding_dim := by
  refine ⟨rfl, by decide, by decide⟩

/-- Claim C3 (code bug): retrieving with query `(1,0)` from a store holding
the all-zero key `(0,0)` computes the similarity `0/√0`, scipy's
`0.0/0.0 = NaN` (the similarity denominator `(q·q)(k·k)` is `0`): the
source applies no zero-vector fallback, and the NaN-similarity entry flows
into the sort and is returned, instead of the defined similarity `0` the
specification requires. -/
theorem c3_zero_vector_similarity_nan :
    mkEntries [1, 0] [[0, 0]] [[5, 5]] = [⟨[0, 0], [5, 5], 0, 0⟩] ∧
    simIsNaN ⟨[0, 0], [5, 5], 0, 0⟩ = true ∧
    MemoryStore.retrieve ⟨10, 2, [[0, 0]], [[5, 5]]⟩ [1, 0] 1 =
      .ok [⟨[0, 0], [5, 5], 0, 0⟩] := by
  refine ⟨?_, by simp [simIsNaN], ?_⟩ <;>
    norm_num [mkEntries, dot, MemoryStore.retrieve, sortDesc, insertDesc]

/-- Claim C1 (code bug): on a trained model whose top-3 retrieval returns
at least one entry, `predict` never returns the similarity-weighted
average — or any value at all.  The concrete `MemoryStore.retrieve`
returns plain tuples (memory.py line 84; the unit tests unpack them as
tuples) while the combination loop reads the `types.MemoryEntry` dataclass
attributes `entry.similarity` and `entry.value` (amem_service.py lines
114-115), so the loop's very first attribute access raises
`AttributeError`.  At the failing input the retrieval holds exactly one
entry, with similarity `1/√1 = 1`, yet `predict` raises instead of
returning the weighted average `(2, 3)` the claim demands. -/
theorem c1_predict_attribute_error :
    MemoryStore.retrieve ⟨1, 2, [[1, 0]], [[2, 3]]⟩ [1, 0] 3 =
      .ok [⟨[1, 0], [2, 3], 1, 1⟩] ∧
    AmemService.predict
      ⟨⟨1, 2, [[1, 0]], [[2, 3]]⟩, true, some ⟨[[0, 0]], [identityMat 2], [1], true, 1⟩⟩
      [1, 0] = .error .attributeError := by
  refine ⟨?_, ?_⟩
  · norm_num [MemoryStore.retrieve, mkEntries, dot, sortDesc, insertDesc]
  · norm_num [AmemService.predict, MemoryStore.retrieve, mkEntries, dot, sortDesc,
      insertDesc]

/-- Claim C10: every failing operation raises before mutating.  A `store`
or `retrieve` with a wrong-dimension vector returns `DimensionMismatch`
with the store exactly as it was; `update` on an empty store returns
`EmptyStore` with the store unchanged; `train` on empty data or a
non-positive component count returns `InvalidInput` with the service state
(memory, `is_trained`, held parameters) exactly as it was, the validation
happening before `fit` is called. -/
theorem c10_failing_ops_preserve_state :
    (∀ (m : MemoryStore) (key value : Vec),
      key.length ≠ m.embedding_dim ∨ value.length ≠ m.embedding_dim →
      m.store key value = (m, some .dimensionMismatch)) ∧
    (∀ (m : MemoryStore) (query : Vec) (k : ℕ),
      query.length ≠ m.embedding_dim →
      m.retrieve query k = .error .dimensionMismatch) ∧
    (∀ (m : MemoryStore) (key value : Vec), m.keys = [] →
      m.update key value = (m, some .emptyStore)) ∧
    (∀ (g : GaussOracle) (cfg : EMConfig) (initMeans : List Vec)
      (s : AmemService) (data : Mat) (n : ℤ), npSize data = 0 ∨ n ≤ 0 →
      AmemService.train g cfg initMeans s data n = (s, some .invalidInput)) := by
  refine ⟨?_, ?_, ?_, ?_⟩
  · intro m key value h
    rcases h with h | h
    · simp [MemoryStore.store, h]
    · by_cases hk : key.length = m.embedding_dim
      · simp [MemoryStore.store, hk, h]
      · simp [MemoryStore.store, hk]
  · intro m query k h
    simp [MemoryStore.retrieve, h]
  · intro m key value h
    simp [MemoryStore.update, h]
  · intro g cfg initMeans s data n h
    rcases h with h | h
    · simp [AmemService.train, h]
    · by_cases hd : npSize data = 0
      · simp [AmemService.train, hd]
      · simp [AmemService.train, hd, h]

/-- Witness for C10 at concrete inputs: a 1-component store call with a
wrong-length key, a wrong-length query, an update of an empty store, and a
train call on an empty data matrix. -/
theorem c10_failing_ops_preserve_state_witness :
    MemoryStore.store ⟨3, 2, [], []⟩ [1] [1, 1] = (⟨3, 2, [], []⟩, some .dimensionMismatch) ∧
    MemoryStore.retrieve ⟨3, 2, [], []⟩ [1] 1 = .error .dimensionMismatch ∧
    MemoryStore.update ⟨3, 2, [], []⟩ [1, 0] [0, 1] = (⟨3, 2, [], []⟩, some .emptyStore) ∧
    AmemService.train constOracle ⟨1, 1⟩ [] ⟨⟨3, 2, [], []⟩, false, none⟩ [] 1 =
      (⟨⟨3, 2, [], []⟩, false, none⟩, some .invalidInput) :=
  ⟨c10_failing_ops_preserve_state.1 _ _ _ (by decide),
   c10_failing_ops_preserve_state.2.1 _ _ 1 (by decide),
   c10_failing_ops_preserve_state.2.2.1 _ _ _ (by decide),
   c10_failing_ops_preserve_state.2.2.2 _ _ _ _ _ _ (by decide)⟩

/-- Claim C5: starting from an empty store of positive capacity, a sequence
of `capacity + m` valid store calls (`m ≥ 1`) leaves exactly the `capacity`
most recently stored pairs, in insertion order, with the `m` oldest evicted;
no call in the sequence raises; and after every prefix of the sequence the
size is at most the capacity. -/
theorem c5_fifo_capacity (cap mExtra dim : ℕ) (pairs : List (Vec × Vec))
    (hcap : 1 ≤ cap) (hm : 1 ≤ mExtra) (hlen : pairs.length = cap + mExtra)
    (hdims : ∀ p ∈ pairs, (p.1 : Vec).length = dim ∧ (p.2 : Vec).length = dim) :
    (storeAll ⟨cap, dim, [], []⟩ pairs).keys = (pairs.map Prod.fst).drop mExtra ∧
    (storeAll ⟨cap, dim, [], []⟩ pairs).values = (pairs.map Prod.snd).drop mExtra ∧
    (storeAll ⟨cap, dim, [], []⟩ pairs).size = cap ∧
    (∀ n, (storeAll ⟨cap, dim, [], []⟩ (pairs.take n)).size ≤ cap) ∧
    (∀ n, n < pairs.length →
      ((storeAll ⟨cap, dim, [], []⟩ (pairs.take n)).store
        (pairs.getD n ([], [])).1 (pairs.getD n ([], [])).2).2 = none) := by
  have hdrop : pairs.length - cap = mExtra := by omega
  have hmain := storeAll_eq cap dim hcap pairs hdims
  have htake : ∀ n, storeAll ⟨cap, dim, [], []⟩ (pairs.take n) =
      ⟨cap, dim, ((pairs.take n).map Prod.fst).drop ((pairs.take n).length - cap),
        ((pairs.take n).map Prod.snd).drop ((pairs.take n).length - cap)⟩ :=
    fun n => storeAll_eq cap dim hcap (pairs.take n)
      (fun p hp => hdims p (List.mem_of_mem_take hp))
  refine ⟨?_, ?_, ?_, ?_, ?_⟩
  · rw [hmain, hdrop]
  · rw [hmain, hdrop]
  · rw [hmain]
    simp [MemoryStore.size, hlen]
  · intro n
    rw [htake n]
    simp [MemoryStore.size]
    omega
  · intro n hn
    rw [htake n]
    have hmem : pairs.getD n ([], []) ∈ pairs := by
      rw [List.getD_eq_getElem pairs ([], []) hn]
      exact List.getElem_mem hn
    have hd := hdims _ hmem
    simp only [MemoryStore.store, hd.1, hd.2]
    rw [if_neg (by simp), if_neg (by simp)]
    split <;> rfl

/-- Witness for C5: the specification's concrete scenario, capacity 2 and
three stores; the keys `(1,0)` and `(2,0)` remain, the oldest `(0,0)` is
evicted. -/
theorem c5_fifo_capacity_witness :
    (storeAll ⟨2, 2, [], []⟩ [([0, 0], [0, 0]), ([1, 0], [0, 1]), ([2, 0], [0, 2])]).keys =
      [[1, 0], [2, 0]] ∧
    (storeAll ⟨2, 2, [], []⟩ [([0, 0], [0, 0]), ([1, 0], [0, 1]), ([2, 0], [0, 2])]).size = 2 := by
  have h := c5_fifo_capacity 2 1 2 [([0, 0], [0, 0]), ([1, 0], [0, 1]), ([2, 0], [0, 2])]
    (by decide) (by decide) (by decide) (by decide)
  exact ⟨by rw [h.1]; decide, h.2.2.1⟩

/-- Claim C6: `retrieve` on a dimension-matching query returns `.ok []` on
an empty store, and otherwise the first `k` of the stored entries stably
sorted in descending order of cosine similarity: the returned list is
`take k` of a permutation of the in-order entry list; entries pair up with
the stored keys/values; the sorted list is pairwise descending in the real
similarity `simNum/√simDen`; every similarity class keeps its original
insertion order (stability); equal comparison keys mean equal real
similarities; and the result length is `min k size`.  The hypotheses
`0 < dot · ·` restrict to nonzero query and keys, where cosine similarity
is defined (the all-zero case produces NaN, settled separately). -/
theorem c6_retrieve_sorted_stable_topk (m : MemoryStore) (query : Vec) (k : ℕ)
    (hdim : query.length = m.embedding_dim)
    (hlen : m.values.length = m.keys.length)
    (hq : 0 < dot query query)
    (hkeys : ∀ sk ∈ m.keys, 0 < dot sk sk) :
    (m.keys = [] → m.retrieve query k = .ok []) ∧
    m.retrieve query k = .ok ((sortDesc (mkEntries query m.keys m.values)).take k) ∧
    List.Perm (sortDesc (mkEntries query m.keys m.values))
      (mkEntries query m.keys m.values) ∧
    (mkEntries query m.keys m.values).map (fun e => (e.key, e.value)) =
      m.keys.zip m.values ∧
    (∀ e ∈ mkEntries query m.keys m.values,
      e.simNum = dot query e.key ∧ e.simDen = dot query query * dot e.key e.key) ∧
    (sortDesc (mkEntries query m.keys m.values)).Pairwise
      (fun a b => (b.simNum : ℝ) / Real.sqrt (b.simDen : ℝ) ≤
        (a.simNum : ℝ) / Real.sqrt (a.simDen : ℝ)) ∧
    (∀ s : ℚ,
      (sortDesc (mkEntries query m.keys m.values)).filter
          (fun e => decide (simOrd e = s)) =
        (mkEntries query m.keys m.values).filter (fun e => decide (simOrd e = s))) ∧
    (∀ a ∈ mkEntries query m.keys m.values, ∀ b ∈ mkEntries query m.keys m.values,
      (simOrd a = simOrd b ↔
        (a.simNum : ℝ) / Real.sqrt (a.simDen : ℝ) =
          (b.simNum : ℝ) / Real.sqrt (b.simDen : ℝ))) ∧
    ((sortDesc (mkEntries query m.keys m.values)).take k).length = min k m.size := by
  have hden : ∀ e ∈ mkEntries query m.keys m.values, 0 < e.simDen := by
    intro e he
    have h := mkEntries_mem query m.keys m.values e he
    rw [h.2.2]
    exact mul_pos hq (hkeys e.key h.1)
  have hperm := sortDesc_perm (mkEntries query m.keys m.values)
  refine ⟨?_, ?_, hperm, mkEntries_map query m.keys m.values, ?_, ?_, ?_, ?_, ?_⟩
  · intro hnil
    simp [MemoryStore.retrieve, hdim, hnil]
  · by_cases hnil : m.keys = []
    · simp [MemoryStore.retrieve, hdim, hnil, mkEntries, sortDesc]
    · simp [MemoryStore.retrieve, hdim, hnil]
  · intro e he
    exact (mkEntries_mem query m.keys m.values e he).2
  · refine List.Pairwise.imp_of_mem ?_ (sortDesc_pairwise (mkEntries query m.keys m.values))
    intro a b ha hb hab
    have hda := hden a (hperm.mem_iff.mp ha)
    have hdb := hden b (hperm.mem_iff.mp hb)
    exact (simOrdND_le_iff b.simNum b.simDen a.simNum a.simDen hdb hda).mp hab
  · exact sortDesc_filter (mkEntries query m.keys m.values)
  · intro a ha b hb
    exact simOrdND_eq_iff a.simNum a.simDen b.simNum b.simDen (hden a ha) (hden b hb)
  · rw [List.length_take, hperm.length_eq, mkEntries_length, hlen]
    simp [MemoryStore.size]

/-- Witness for C6: the specification's concrete retrieval scenario
(three stored keys, query `(1,0)`, `k = 2`). -/
theorem c6_retrieve_sorted_stable_topk_witness :
    MemoryStore.retrieve ⟨10, 2, [[1, 0], [9/10, 1/10], [0, 1]], [[1, 1], [2, 2], [3, 3]]⟩
        [1, 0] 2 =
      .ok ((sortDesc (mkEntries [1, 0] [[1, 0], [9/10, 1/10], [0, 1]]
        [[1, 1], [2, 2], [3, 3]])).take 2) ∧
    ((sortDesc (mkEntries [1, 0] [[1, 0], [9/10, 1/10], [0, 1]]
      [[1, 1], [2, 2], [3, 3]])).take 2).length = min 2 3 := by
  have h := c6_retrieve_sorted_stable_topk
    ⟨10, 2, [[1, 0], [9/10, 1/10], [0, 1]], [[1, 1], [2, 2], [3, 3]]⟩ [1, 0] 2
    (by decide) (by decide) (by norm_num [dot])
    (by
      intro sk hsk
      simp only [List.mem_cons, List.not_mem_nil, or_false] at hsk
      rcases hsk with rfl | rfl | rfl <;> norm_num [dot])
  exact ⟨h.2.1, h.2.2.2.2.2.2.2.2⟩

/-- Claim C9: on a nonempty store, `update` with a configured-dimension
key/value pair returns no error and replaces exactly the value at the first
index of maximum cosine similarity to `key`: the new state differs from the
old only in `values.set best value`, the keys (including the selected
slot's) are untouched, the size is unchanged, the selected index is
in range and its real similarity is maximal, strictly exceeding every
earlier index (first-of-ties, as `np.argmax`).  The `0 < dot · ·`
hypotheses restrict to nonzero vectors, where cosine similarity is
defined. -/
theorem c9_update_replaces_first_argmax (m : MemoryStore) (key value : Vec)
    (hne : m.keys ≠ [])
    (hlen : m.values.length = m.keys.length)
    (hkdim : key.length = m.embedding_dim)
    (hvdim : value.length = m.embedding_dim)
    (hkeysdim : ∀ sk ∈ m.keys, sk.length = m.embedding_dim)
    (hk : 0 < dot key key)
    (hkeys : ∀ sk ∈ m.keys, 0 < dot sk sk) :
    m.update key value =
      ({ m with values := m.values.set (argmaxIdx (updateSims key m.keys)) value }, none) ∧
    argmaxIdx (updateSims key m.keys) < m.keys.length ∧
    (m.values.set (argmaxIdx (updateSims key m.keys)) value).length = m.values.length ∧
    (∀ j, j < m.keys.length →
      (dot key (m.keys.getD j []) : ℝ) /
          Real.sqrt ((dot key key * dot (m.keys.getD j []) (m.keys.getD j []) : ℚ) : ℝ) ≤
        (dot key (m.keys.getD (argmaxIdx (updateSims key m.keys)) []) : ℝ) /
          Real.sqrt ((dot key key *
            dot (m.keys.getD (argmaxIdx (updateSims key m.keys)) [])
              (m.keys.getD (argmaxIdx (updateSims key m.keys)) []) : ℚ) : ℝ)) ∧
    (∀ j, j < argmaxIdx (updateSims key m.keys) →
      (dot key (m.keys.getD j []) : ℝ) /
          Real.sqrt ((dot key key * dot (m.keys.getD j []) (m.keys.getD j []) : ℚ) : ℝ) <
        (dot key (m.keys.getD (argmaxIdx (updateSims key m.keys)) []) : ℝ) /
          Real.sqrt ((dot key key *
            dot (m.keys.getD (argmaxIdx (updateSims key m.keys)) [])
              (m.keys.getD (argmaxIdx (updateSims key m.keys)) []) : ℚ) : ℝ)) := by
  have hsims_len : (updateSims key m.keys).length = m.keys.length := by
    simp [updateSims]
  have hsims_ne : updateSims key m.keys ≠ [] := by
    simp [updateSims, hne]
  have hbest : argmaxIdx (updateSims key m.keys) < m.keys.length := by
    rw [← hsims_len]
    exact argmaxIdx_lt_length _ hsims_ne
  have hget : ∀ j, j < m.keys.length → (updateSims key m.keys).getD j 0 =
      simOrdND (dot key (m.keys.getD j []))
        (dot key key * dot (m.keys.getD j []) (m.keys.getD j [])) := by
    intro j hj
    rw [List.getD_eq_getElem _ _ (by rw [hsims_len]; exact hj)]
    simp only [updateSims, List.getElem_map]
    rw [List.getD_eq_getElem _ _ hj]
  have hmemD : ∀ j, j < m.keys.length → m.keys.getD j [] ∈ m.keys := by
    intro j hj
    rw [List.getD_eq_getElem _ _ hj]
    exact List.getElem_mem hj
  have hdpos : ∀ j, j < m.keys.length →
      0 < dot key key * dot (m.keys.getD j []) (m.keys.getD j []) :=
    fun j hj => mul_pos hk (hkeys _ (hmemD j hj))
  refine ⟨?_, hbest, by simp, ?_, ?_⟩
  · simp [MemoryStore.update, hne]
  · intro j hj
    have h1 := argmaxIdx_le (updateSims key m.keys) j (by rw [hsims_len]; exact hj)
    rw [hget j hj, hget _ hbest] at h1
    exact (simOrdND_le_iff _ _ _ _ (hdpos j hj) (hdpos _ hbest)).mp h1
  · intro j hj
    have hjlen : j < m.keys.length := lt_trans hj hbest
    have h1 := argmaxIdx_first (updateSims key m.keys) j hj
    rw [hget j hjlen, hget _ hbest] at h1
    exact (simOrdND_lt_iff _ _ _ _ (hdpos j hjlen) (hdpos _ hbest)).mp h1

/-- Witness for C9: updating the two-entry store with key `(0,1)` hits the
slot of the identical stored key, in range, leaving the keys unchanged. -/
theorem c9_update_replaces_first_argmax_witness :
    MemoryStore.update ⟨10, 2, [[1, 0], [0, 1]], [[1, 1], [2, 2]]⟩ [0, 1] [9, 9] =
      (⟨10, 2, [[1, 0], [0, 1]],
        ([[1, 1], [2, 2]] : List Vec).set
          (argmaxIdx (updateSims [0, 1] [[1, 0], [0, 1]])) [9, 9]⟩, none) ∧
    argmaxIdx (updateSims [0, 1] [[1, 0], [0, 1]]) < 2 := by
  have h := c9_update_replaces_first_argmax ⟨10, 2, [[1, 0], [0, 1]], [[1, 1], [2, 2]]⟩
    [0, 1] [9, 9] (by decide) (by decide) (by decide) (by decide)
    (by
      intro sk hsk
      simp only [List.mem_cons, List.not_mem_nil, or_false] at hsk
      rcases hsk with rfl | rfl <;> rfl)
    (by norm_num [dot])
    (by
      intro sk hsk
      simp only [List.mem_cons, List.not_mem_nil, or_false] at hsk
      rcases hsk with rfl | rfl <;> norm_num [dot])
  exact ⟨h.1, h.2.1⟩

theorem firstTrigger_some_spec (g : GaussOracle) (data : Mat)
    (init : List Vec × List Mat × List ℚ) (tol : ℚ) :
    ∀ (fuel start t : ℕ), firstTrigger g data init tol start fuel = some t →
      start ≤ t ∧ t < start + fuel ∧ triggerAt g data init tol t ∧
        ∀ u, start ≤ u → u < t → ¬ triggerAt g data init tol u := by
  intro fuel
  induction fuel with
  | zero =>
    intro start t h
    simp [firstTrigger] at h
  | succ fuel ih =>
    intro start t h
    rw [firstTrigger] at h
    split at h
    · rename_i htr
      obtain rfl : start = t := Option.some.inj h
      exact ⟨le_refl _, by omega, htr, fun u hu hut => absurd (lt_of_le_of_lt hu hut)
        (lt_irrefl _)⟩
    · rename_i htr
      have h2 := ih (start + 1) t h
      refine ⟨by omega, by omega, h2.2.2.1, ?_⟩
      intro u hu hut
      by_cases hus : u = start
      · subst hus
        exact htr
      · exact h2.2.2.2 u (by omega) hut

theorem firstTrigger_none_spec (g : GaussOracle) (data : Mat)
    (init : List Vec × List Mat × List ℚ) (tol : ℚ) :
    ∀ (fuel start : ℕ), firstTrigger g data init tol start fuel = none →
      ∀ u, start ≤ u → u < start + fuel → ¬ triggerAt g data init tol u := by
  intro fuel
  induction fuel with
  | zero =>
    intro start _ u hu hult
    omega
  | succ fuel ih =>
    intro start h u hu hult
    rw [firstTrigger] at h
    split at h
    · exact absurd h (by simp)
    · rename_i htr
      by_cases hus : u = start
      · subst hus
        exact htr
      · exact ih (start + 1) h u (by omega) (by omega)

/-- The `fit` loop, run from the `i`-th point of the EM trajectory with the
matching previous log-likelihood, stops with `converged = true` at the
first iteration count in `(i, i + fuel]` at which the improvement test
fires, and otherwise returns the end of the trajectory with
`converged = false` and `n_iterations = i + fuel`. -/
theorem fitLoop_eq (g : GaussOracle) (data : Mat)
    (init : List Vec × List Mat × List ℚ) (tol : ℚ) :
    ∀ (fuel i : ℕ),
    fitLoop g tol data fuel (tripleAt g data init i)
        (if i = 0 then none else some (llAt g data init i)) i =
      (match firstTrigger g data init tol (i + 1) fuel with
       | some t => ⟨(tripleAt g data init t).1, (tripleAt g data init t).2.1,
           (tripleAt g data init t).2.2, true, t⟩
       | none => ⟨(tripleAt g data init (i + fuel)).1,
           (tripleAt g data init (i + fuel)).2.1,
           (tripleAt g data init (i + fuel)).2.2, false, i + fuel⟩) := by
  intro fuel
  induction fuel with
  | zero =>
    intro i
    simp [fitLoop, firstTrigger]
  | succ fuel ih =>
    intro i
    rw [show fitLoop g tol data (fuel + 1) (tripleAt g data init i)
          (if i = 0 then none else some (llAt g data init i)) i =
        (if llImproveLt (if i = 0 then none else some (llAt g data init i))
             (llAt g data init (i + 1)) tol = true then
           (⟨(tripleAt g data init (i + 1)).1, (tripleAt g data init (i + 1)).2.1,
             (tripleAt g data init (i + 1)).2.2, true, i + 1⟩ : ModelParameters)
         else fitLoop g tol data fuel ((tripleAt g data init (i + 1)).1,
           ((tripleAt g data init (i + 1)).2.1, (tripleAt g data init (i + 1)).2.2))
           (some (llAt g data init (i + 1))) (i + 1)) from rfl]
    by_cases hi : i = 0
    · subst hi
      rw [if_neg (by simp [llImproveLt])]
      have h1 := ih 1
      rw [if_neg one_ne_zero] at h1
      rw [show fitLoop g tol data fuel ((tripleAt g data init 1).1,
          ((tripleAt g data init 1).2.1, (tripleAt g data init 1).2.2))
          (some (llAt g data init 1)) 1 =
        fitLoop g tol data fuel (tripleAt g data init 1)
          (some (llAt g data init 1)) 1 from rfl, h1]
      rw [show firstTrigger g data init tol (0 + 1) (fuel + 1) =
          firstTrigger g data init tol 2 fuel by
        rw [firstTrigger]
        rw [if_neg (by intro htr; omega)]]
      have harith : 0 + (fuel + 1) = 1 + fuel := by omega
      rw [harith]
    · rw [if_neg hi]
      by_cases hlt : llAt g data init (i + 1) - llAt g data init i < tol
      · rw [if_pos (by simp [llImproveLt, hlt])]
        rw [show firstTrigger g data init tol (i + 1) (fuel + 1) = some (i + 1) by
          rw [firstTrigger]
          rw [if_pos ⟨by omega, by simpa using hlt⟩]]
      · rw [if_neg (by simp [llImproveLt, hlt])]
        have h1 := ih (i + 1)
        rw [if_neg (Nat.succ_ne_zero i)] at h1
        rw [show fitLoop g tol data fuel ((tripleAt g data init (i + 1)).1,
            ((tripleAt g data init (i + 1)).2.1, (tripleAt g data init (i + 1)).2.2))
            (some (llAt g data init (i + 1))) (i + 1) =
          fitLoop g tol data fuel (tripleAt g data init (i + 1))
            (some (llAt g data init (i + 1))) (i + 1) from rfl, h1]
        rw [show firstTrigger g data init tol (i + 1) (fuel + 1) =
            firstTrigger g data init tol (i + 1 + 1) fuel by
          rw [firstTrigger]
          rw [if_neg (by
            intro htr
            exact hlt (by simpa using htr.2))]]
        have harith : i + (fuel + 1) = i + 1 + fuel := by omega
        rw [harith]

/-- Claim C7: for every `fit` run on valid input (with the random initial
means passed explicitly and `T0` the initial EM state), the returned
`converged` flag is true exactly when the improvement test
`llAt t - llAt (t-1) < tolerance` fires at some iteration count
`t ≤ max_iterations`; the test never fires at `t = 1` (the first iteration
compares against `-inf`), so a converged run has `n_iterations ≥ 2` and
`n_iterations` is the first firing count, with the parameters of that point
of the trajectory; a non-converged run returns the trajectory's last
parameters with `n_iterations = max_iterations`; and always
`n_iterations ≤ max_iterations`. -/
theorem c7_fit_convergence_semantics (g : GaussOracle) (cfg : EMConfig)
    (initMeans : List Vec) (data : Mat) (n_components : ℤ) (p : ModelParameters)
    (T0 : List Vec × List Mat × List ℚ)
    (hT0 : T0 = initTriple initMeans n_components.toNat (data.headD []).length)
    (hsz : npSize data ≠ 0) (hnc : 0 < n_components)
    (hfit : ExpectationMaximizer.fit g cfg initMeans data n_components = .ok p) :
    p.n_iterations ≤ cfg.max_iterations ∧
    (p.converged = true ↔
      ∃ t, t ≤ cfg.max_iterations ∧ triggerAt g data T0 cfg.tolerance t) ∧
    (p.converged = true →
      triggerAt g data T0 cfg.tolerance p.n_iterations ∧
      (∀ u, u < p.n_iterations → ¬ triggerAt g data T0 cfg.tolerance u) ∧
      2 ≤ p.n_iterations ∧
      p.means = (tripleAt g data T0 p.n_iterations).1 ∧
      p.covariances = (tripleAt g data T0 p.n_iterations).2.1 ∧
      p.weights = (tripleAt g data T0 p.n_iterations).2.2) ∧
    (p.converged = false →
      p.n_iterations = cfg.max_iterations ∧
      p.means = (tripleAt g data T0 cfg.max_iterations).1 ∧
      p.covariances = (tripleAt g data T0 cfg.max_iterations).2.1 ∧
      p.weights = (tripleAt g data T0 cfg.max_iterations).2.2) := by
  subst hT0
  rw [ExpectationMaximizer.fit, if_neg hsz, if_neg (by omega)] at hfit
  have hp : p = fitLoop g cfg.tolerance data cfg.max_iterations
      (tripleAt g data (initTriple initMeans n_components.toNat (data.headD []).length) 0)
      (if (0 : ℕ) = 0 then none
       else some (llAt g data
         (initTriple initMeans n_components.toNat (data.headD []).length) 0)) 0 :=
    (Except.ok.inj hfit).symm
  rw [fitLoop_eq] at hp
  set T0 := initTriple initMeans n_components.toNat (data.headD []).length with hT0d
  rcases hft : firstTrigger g data T0 cfg.tolerance (0 + 1) cfg.max_iterations
    with _ | t
  · rw [hft] at hp
    subst hp
    have hnone := firstTrigger_none_spec g data T0 cfg.tolerance cfg.max_iterations
      (0 + 1) hft
    simp only [Nat.zero_add]
    refine ⟨le_refl _, ?_, ?_, ?_⟩
    · constructor
      · intro h
        exact absurd h (by simp)
      · rintro ⟨t, hle, htr⟩
        have h2 := htr.1
        exact absurd htr (hnone t (by omega) (by omega))
    · intro h
      exact absurd h (by simp)
    · intro _
      exact ⟨trivial, trivial, trivial, trivial⟩
  · rw [hft] at hp
    subst hp
    have hsome := firstTrigger_some_spec g data T0 cfg.tolerance cfg.max_iterations
      (0 + 1) t hft
    have hle : t ≤ cfg.max_iterations := by omega
    refine ⟨hle, ?_, ?_, by intro h; cases h⟩
    · exact ⟨fun _ => ⟨t, hle, hsome.2.2.1⟩, fun _ => rfl⟩
    · intro _
      refine ⟨hsome.2.2.1, ?_, hsome.2.2.1.1, rfl, rfl, rfl⟩
      intro u hu
      by_cases hu0 : u = 0
      · subst hu0
        intro htr
        omega
      · by_cases hu1 : u = 1
        · subst hu1
          intro htr
          omega
        · exact hsome.2.2.2 u (by omega) hu

/-- Witness for C7: a concrete converging run (constant density `1`,
`max_iterations = 3`, `tolerance = 1/2`) stops with `converged = true` at
`n_iterations = 2`. -/
theorem c7_fit_convergence_semantics_witness :
    (⟨[[0]], [[[1/1000000]]], [1], true, 2⟩ : ModelParameters).n_iterations ≤
      (⟨3, 1/2⟩ : EMConfig).max_iterations ∧
    ((⟨[[0]], [[[1/1000000]]], [1], true, 2⟩ : ModelParameters).converged = true ↔
      ∃ t, t ≤ (⟨3, 1/2⟩ : EMConfig).max_iterations ∧
        triggerAt constOracle [[0]] (initTriple [[0]] 1 1)
          (⟨3, 1/2⟩ : EMConfig).tolerance t) := by
  have h := c7_fit_convergence_semantics constOracle ⟨3, 1/2⟩ [[0]] [[0]] 1
    ⟨[[0]], [[[1/1000000]]], [1], true, 2⟩ (initTriple [[0]] 1 1) rfl
    (by norm_num [npSize]) (by norm_num)
    (by
      norm_num [ExpectationMaximizer.fit, fitLoop, initTriple, npSize, expectation_step,
        rawResp, maximization_step, log_likelihood, llImproveLt, constOracle, identityMat,
        matAdd, matSmul, zerosMat, outer, colSum, vecAdd, vecSub, smul, zeros,
        List.range_succ, List.replicate_succ])
  exact ⟨h.1, h.2.1⟩

theorem getD_nonneg_of_forall (l : List ℚ) (h : ∀ x ∈ l, 0 ≤ x) (k : ℕ) :
    0 ≤ l.getD k 0 := by
  by_cases hk : k < l.length
  · rw [List.getD_eq_getElem _ _ hk]
    exact h _ (List.getElem_mem hk)
  · rw [List.getD_eq_default _ _ (by omega)]

theorem rawResp_length (g : GaussOracle) (p : ModelParameters) (x : Vec) :
    (rawResp g p x).length = p.means.length := by
  simp [rawResp]

theorem rawResp_getD (g : GaussOracle) (p : ModelParameters) (x : Vec) (k : ℕ)
    (hk : k < p.means.length) :
    (rawResp g p x).getD k 0 =
      (match g.density (p.means.getD k []) (p.covariances.getD k []) with
       | some pdf => p.weights.getD k 0 * pdf x
       | none => 0) := by
  rw [List.getD_eq_getElem _ _ (by simpa [rawResp] using hk)]
  simp [rawResp]

theorem rawResp_nonneg (g : GaussOracle) (p : ModelParameters) (x : Vec)
    (hw : ∀ w ∈ p.weights, 0 ≤ w)
    (hpdf : ∀ mean cov pdf, g.density mean cov = some pdf → ∀ y, 0 ≤ pdf y) :
    ∀ r ∈ rawResp g p x, 0 ≤ r := by
  intro r hr
  rw [rawResp, List.mem_map] at hr
  obtain ⟨k, _, rfl⟩ := hr
  rcases hden : g.density (p.means.getD k []) (p.covariances.getD k []) with _ | pdf
  · simp [hden]
  · simp only [hden]
    exact mul_nonneg (getD_nonneg_of_forall p.weights hw k) (hpdf _ _ _ hden x)

theorem sum_eq_zero_of_nonneg (l : List ℚ) (h : ∀ x ∈ l, 0 ≤ x) (hs : l.sum = 0) :
    ∀ x ∈ l, x = 0 := by
  induction l with
  | nil => simp
  | cons x xs ih =>
    have hx : 0 ≤ x := h x (List.mem_cons_self _ _)
    have hxs : ∀ y ∈ xs, 0 ≤ y := fun y hy => h y (List.mem_cons_of_mem _ hy)
    have hsum : 0 ≤ xs.sum := List.sum_nonneg hxs
    rw [List.sum_cons] at hs
    have hx0 : x = 0 := by linarith
    have hxs0 : xs.sum = 0 := by linarith
    intro y hy
    rcases List.mem_cons.mp hy with rfl | hy
    · exact hx0
    · exact ih hxs hxs0 y hy

theorem sum_map_div (l : List ℚ) (s : ℚ) : (l.map (· / s)).sum = l.sum / s := by
  induction l with
  | nil => simp
  | cons x xs ih =>
    simp only [List.map_cons, List.sum_cons, ih]
    ring

theorem headD_mem {α : Type} (l : List α) (d : α) (h : l ≠ []) : l.headD d ∈ l := by
  cases l with
  | nil => exact absurd rfl h
  | cons x xs => exact List.mem_cons_self _ _

theorem sum_map_add (n : ℕ) (f h : ℕ → ℚ) :
    ((List.range n).map (fun k => f k + h k)).sum =
      ((List.range n).map f).sum + ((List.range n).map h).sum := by
  induction n with
  | zero => simp
  | succ n ih =>
    simp only [List.range_succ, List.map_append, List.sum_append, ih, List.map_cons,
      List.map_nil, List.sum_cons, List.sum_nil]
    ring

theorem sum_range_getD (row : List ℚ) :
    ((List.range row.length).map (fun k => row.getD k 0)).sum = row.sum := by
  induction row with
  | nil => simp
  | cons x xs ih =>
    rw [List.length_cons, List.range_succ_eq_map, List.map_cons, List.map_map]
    simp only [List.getD_cons_zero, List.sum_cons]
    have hc : List.map ((fun k => (x :: xs).getD k 0) ∘ Nat.succ) (List.range xs.length) =
        List.map (fun k => xs.getD k 0) (List.range xs.length) :=
      List.map_congr_left (fun a _ => rfl)
    rw [hc, ih]

theorem sum_colSums (resp : Mat) (nn : ℕ)
    (hrows : ∀ row ∈ resp, (row : List ℚ).length = nn) :
    ((List.range nn).map (colSum resp)).sum = (resp.map List.sum).sum := by
  induction resp with
  | nil =>
    rw [show List.map (colSum []) (List.range nn) =
        List.map (fun _ => (0 : ℚ)) (List.range nn) from
      List.map_congr_left (fun k _ => rfl)]
    simp
  | cons row rest ih =>
    have hrow : row.length = nn := hrows row (List.mem_cons_self _ _)
    have hrest : ∀ r ∈ rest, (r : List ℚ).length = nn :=
      fun r hr => hrows r (List.mem_cons_of_mem _ hr)
    have hcol : ∀ k, colSum (row :: rest) k = row.getD k 0 + colSum rest k := by
      intro k
      simp [colSum]
    calc ((List.range nn).map (colSum (row :: rest))).sum
        = ((List.range nn).map (fun k => row.getD k 0 + colSum rest k)).sum := by
          rw [List.map_congr_left (fun k _ => hcol k)]
      _ = ((List.range nn).map (fun k => row.getD k 0)).sum +
            ((List.range nn).map (colSum rest)).sum := sum_map_add nn _ _
      _ = row.sum + (rest.map List.sum).sum := by
          rw [ih hrest, ← hrow, sum_range_getD]
      _ = ((row :: rest).map List.sum).sum := by simp

theorem expectation_step_eq_map (g : GaussOracle) (data : Mat) (p : ModelParameters) :
    expectation_step g data p = data.map (fun x =>
      if (rawResp g p x).sum = 0 then rawResp g p x
      else (rawResp g p x).map (· / (rawResp g p x).sum)) := by
  simp only [expectation_step, List.map_map]
  rfl

/-- During `fit`, the responsibilities are a row-stochastic matrix: with
strictly positive densities (true of Gaussian densities on the positive
definite covariances `fit` produces) and probability weights, every raw
row has a strictly positive sum, so every normalized row is nonnegative
and sums to `1`. -/
theorem expectation_step_invariant (g : GaussOracle) (data : Mat) (p : ModelParameters)
    (nn : ℕ)
    (hpos : ∀ mean cov, ∃ pdf, g.density mean cov = some pdf ∧ ∀ x, 0 < pdf x)
    (hm : p.means.length = nn)
    (hwlen : p.weights.length = nn) (hwsum : p.weights.sum = 1)
    (hwnn : ∀ w ∈ p.weights, 0 ≤ w) :
    (expectation_step g data p).length = data.length ∧
    (∀ row ∈ expectation_step g data p, (row : List ℚ).length = nn) ∧
    (∀ row ∈ expectation_step g data p, (row : List ℚ).sum = 1) ∧
    (∀ row ∈ expectation_step g data p, ∀ r ∈ row, 0 ≤ (r : ℚ)) := by
  have hpdf_nn : ∀ mean cov pdf, g.density mean cov = some pdf → ∀ y, 0 ≤ pdf y := by
    intro m c pdf h y
    obtain ⟨pdf2, hs, hp2⟩ := hpos m c
    rw [h] at hs
    rw [Option.some.inj hs]
    exact (hp2 y).le
  have hraw_pos : ∀ x, 0 < (rawResp g p x).sum := by
    intro x
    have hex : ∃ w ∈ p.weights, 0 < w := by
      by_contra hcon
      push_neg at hcon
      have hall0 : ∀ w ∈ p.weights, w = 0 :=
        fun w hw => le_antisymm (hcon w hw) (hwnn w hw)
      rw [List.sum_eq_zero hall0] at hwsum
      exact absurd hwsum (by norm_num)
    obtain ⟨w0, hw0mem, hw0⟩ := hex
    obtain ⟨k0, hk0, hgetk0⟩ := List.getElem_of_mem hw0mem
    have hk0m : k0 < p.means.length := by
      rw [hm]
      rw [hwlen] at hk0
      exact hk0
    obtain ⟨pdf, hsome, hpdfpos⟩ := hpos (p.means.getD k0 []) (p.covariances.getD k0 [])
    have hentry : (rawResp g p x).getD k0 0 = p.weights.getD k0 0 * pdf x := by
      rw [rawResp_getD g p x k0 hk0m]
      simp only [hsome]
    have hwk0 : p.weights.getD k0 0 = w0 := by
      rw [List.getD_eq_getElem _ _ hk0, hgetk0]
    have hpos_entry : 0 < (rawResp g p x).getD k0 0 := by
      rw [hentry, hwk0]
      exact mul_pos hw0 (hpdfpos x)
    have hmem : (rawResp g p x).getD k0 0 ∈ rawResp g p x := by
      rw [List.getD_eq_getElem _ _ (by rw [rawResp_length]; exact hk0m)]
      exact List.getElem_mem _
    have hle := List.single_le_sum (rawResp_nonneg g p x hwnn hpdf_nn) _ hmem
    linarith
  rw [expectation_step_eq_map]
  refine ⟨by simp, ?_, ?_, ?_⟩
  · intro row hrow
    rw [List.mem_map] at hrow
    obtain ⟨x, _, rfl⟩ := hrow
    rw [if_neg (hraw_pos x).ne', List.length_map, rawResp_length, hm]
  · intro row hrow
    rw [List.mem_map] at hrow
    obtain ⟨x, _, rfl⟩ := hrow
    rw [if_neg (hraw_pos x).ne', sum_map_div]
    exact div_self (hraw_pos x).ne'
  · intro row hrow r hr
    rw [List.mem_map] at hrow
    obtain ⟨x, _, rfl⟩ := hrow
    rw [if_neg (hraw_pos x).ne'] at hr
    rw [List.mem_map] at hr
    obtain ⟨a, ha, rfl⟩ := hr
    exact div_nonneg (rawResp_nonneg g p x hwnn hpdf_nn a ha) (hraw_pos x).le

/-- The M-step turns a row-stochastic responsibility matrix into
`n_components` means, covariances and weights, the weights being the
column averages: nonnegative and summing to exactly `1`. -/
theorem maximization_step_invariant (data : Mat) (resp : Mat) (nn : ℕ)
    (hdata : data ≠ [])
    (hlen : resp.length = data.length)
    (hrows : ∀ row ∈ resp, (row : List ℚ).length = nn)
    (hsum1 : ∀ row ∈ resp, (row : List ℚ).sum = 1)
    (hnnr : ∀ row ∈ resp, ∀ r ∈ row, 0 ≤ (r : ℚ)) :
    (maximization_step data resp).means.length = nn ∧
    (maximization_step data resp).covariances.length = nn ∧
    (maximization_step data resp).weights.length = nn ∧
    (maximization_step data resp).weights.sum = 1 ∧
    ∀ w ∈ (maximization_step data resp).weights, 0 ≤ w := by
  have hrne : resp ≠ [] := by
    intro h
    subst h
    exact hdata (List.length_eq_zero.mp hlen.symm)
  have hhead : (resp.headD []).length = nn := hrows _ (headD_mem resp [] hrne)
  have hns : ((data.length : ℚ)) ≠ 0 := by
    have h := List.length_pos.mpr hdata
    exact_mod_cast h.ne'
  have hnk_sum : ((List.range nn).map (colSum resp)).sum = (data.length : ℚ) := by
    rw [sum_colSums resp nn hrows]
    have hone : resp.map List.sum = resp.map (fun _ => (1 : ℚ)) :=
      List.map_congr_left (fun row hrow => hsum1 row hrow)
    rw [hone, List.map_const', List.sum_replicate, nsmul_eq_mul, mul_one, hlen]
  have hnk_nonneg : ∀ k, 0 ≤ colSum resp k := by
    intro k
    apply List.sum_nonneg
    intro a ha
    rw [List.mem_map] at ha
    obtain ⟨row, hrow, rfl⟩ := ha
    exact getD_nonneg_of_forall row (hnnr row hrow) k
  simp only [maximization_step, hhead]
  refine ⟨by simp, by simp, by simp, ?_, ?_⟩
  · rw [sum_map_div, hnk_sum]
    exact div_self hns
  · intro w hw
    rw [List.mem_map] at hw
    obtain ⟨a, ha, rfl⟩ := hw
    rw [List.mem_map] at ha
    obtain ⟨k, _, rfl⟩ := ha
    exact div_nonneg (hnk_nonneg k) (by positivity)

/-- The EM trajectory invariant: from an initial state with `nn` means,
covariances and weights, the weights a probability vector, every point of
the trajectory keeps component count `nn` and probability weights. -/
theorem tripleAt_invariant (g : GaussOracle) (data : Mat)
    (init : List Vec × List Mat × List ℚ) (nn : ℕ)
    (hpos : ∀ mean cov, ∃ pdf, g.density mean cov = some pdf ∧ ∀ x, 0 < pdf x)
    (hdata : data ≠ [])
    (h1 : init.1.length = nn) (h2 : init.2.1.length = nn) (h3 : init.2.2.length = nn)
    (h4 : init.2.2.sum = 1) (h5 : ∀ w ∈ init.2.2, 0 ≤ w) :
    ∀ t, (tripleAt g data init t).1.length = nn ∧
      (tripleAt g data init t).2.1.length = nn ∧
      (tripleAt g data init t).2.2.length = nn ∧
      (tripleAt g data init t).2.2.sum = 1 ∧
      ∀ w ∈ (tripleAt g data init t).2.2, 0 ≤ w := by
  intro t
  induction t with
  | zero => exact ⟨h1, h2, h3, h4, h5⟩
  | succ t ih =>
    have hE := expectation_step_invariant g data
      ⟨(tripleAt g data init t).1, (tripleAt g data init t).2.1,
        (tripleAt g data init t).2.2, false, 0⟩ nn hpos ih.1 ih.2.2.1 ih.2.2.2.1
      ih.2.2.2.2
    have hM := maximization_step_invariant data
      (expectation_step g data ⟨(tripleAt g data init t).1, (tripleAt g data init t).2.1,
        (tripleAt g data init t).2.2, false, 0⟩) nn hdata hE.1 hE.2.1 hE.2.2.1 hE.2.2.2
    exact ⟨hM.1, hM.2.1, hM.2.2.1, hM.2.2.2.1, hM.2.2.2.2⟩

/-- Counterexample to claim C4 as stated: the `1 × 0` data matrix (one
sample, zero features) has at least one sample and `n_components = 1 > 0`,
yet `fit` raises `InvalidInput`, because the source rejects
`data.size == 0` (total element count), not zero samples. -/
theorem c4_counterexample_zero_features :
    ([([] : Vec)] : Mat).length = 1 ∧ (0 : ℤ) < 1 ∧
    ExpectationMaximizer.fit constOracle ⟨100, 1/1000000⟩ [[]] [[]] 1 =
      .error .invalidInput := by
  refine ⟨rfl, by decide, ?_⟩
  norm_num [ExpectationMaximizer.fit, npSize]

/-- Claim C4 as amended: for every data matrix with at least one sample
and at least one feature (so `data.size ≠ 0`) and every positive
`n_components`, `fit` succeeds and returns parameters whose means,
covariances and weights all have length `n_components`, the weights
nonnegative and summing to exactly `1` (rational arithmetic; within
floating tolerance under IEEE doubles).  The density oracle hypothesis
states that every density is defined and strictly positive, as Gaussian
densities are on the identity / regularized covariances `fit` uses. -/
theorem c4_amended_fit_shapes_weights (g : GaussOracle) (cfg : EMConfig)
    (initMeans : List Vec) (data : Mat) (n_components : ℤ)
    (hdata : data ≠ []) (hfeat : 0 < (data.headD []).length)
    (hnc : 0 < n_components)
    (hinit : initMeans.length = n_components.toNat)
    (hpos : ∀ mean cov, ∃ pdf, g.density mean cov = some pdf ∧ ∀ x, 0 < pdf x) :
    ∃ p, ExpectationMaximizer.fit g cfg initMeans data n_components = .ok p ∧
      p.means.length = n_components.toNat ∧
      p.covariances.length = n_components.toNat ∧
      p.weights.length = n_components.toNat ∧
      p.weights.sum = 1 ∧ ∀ w ∈ p.weights, 0 ≤ w := by
  have hsz : npSize data ≠ 0 := by
    cases data with
    | nil => exact absurd rfl hdata
    | cons d0 rest =>
      simp only [npSize, List.map_cons, List.sum_cons]
      simp only [List.headD_cons] at hfeat
      omega
  have hnn : 0 < n_components.toNat := by omega
  have hnnq : ((n_components.toNat : ℚ)) ≠ 0 := by
    exact_mod_cast hnn.ne'
  have hinv := tripleAt_invariant g data
    (initTriple initMeans n_components.toNat (data.headD []).length)
    n_components.toNat hpos hdata
    (by simpa [initTriple] using hinit)
    (by simp [initTriple])
    (by simp [initTriple])
    (by
      simp only [initTriple, List.sum_replicate, nsmul_eq_mul]
      exact mul_inv_cancel₀ hnnq)
    (by
      intro w hw
      simp only [initTriple, List.mem_replicate] at hw
      rw [hw.2]
      positivity)
  rw [ExpectationMaximizer.fit, if_neg hsz, if_neg (by omega)]
  have hloop : fitLoop g cfg.tolerance data cfg.max_iterations
      (initTriple initMeans n_components.toNat (data.headD []).length) none 0 =
      (match firstTrigger g data
          (initTriple initMeans n_components.toNat (data.headD []).length)
          cfg.tolerance (0 + 1) cfg.max_iterations with
       | some t =>
         (⟨(tripleAt g data (initTriple initMeans n_components.toNat
              (data.headD []).length) t).1,
           (tripleAt g data (initTriple initMeans n_components.toNat
              (data.headD []).length) t).2.1,
           (tripleAt g data (initTriple initMeans n_components.toNat
              (data.headD []).length) t).2.2, true, t⟩ : ModelParameters)
       | none =>
         ⟨(tripleAt g data (initTriple initMeans n_components.toNat
              (data.headD []).length) (0 + cfg.max_iterations)).1,
           (tripleAt g data (initTriple initMeans n_components.toNat
              (data.headD []).length) (0 + cfg.max_iterations)).2.1,
           (tripleAt g data (initTriple initMeans n_components.toNat
              (data.headD []).length) (0 + cfg.max_iterations)).2.2, false,
           0 + cfg.max_iterations⟩) :=
    fitLoop_eq g data (initTriple initMeans n_components.toNat (data.headD []).length)
      cfg.tolerance cfg.max_iterations 0
  rcases hft : firstTrigger g data
      (initTriple initMeans n_components.toNat (data.headD []).length)
      cfg.tolerance (0 + 1) cfg.max_iterations with _ | t
  · rw [hft] at hloop
    rw [hloop]
    exact ⟨_, rfl, (hinv _).1, (hinv _).2.1, (hinv _).2.2.1, (hinv _).2.2.2.1,
      (hinv _).2.2.2.2⟩
  · rw [hft] at hloop
    rw [hloop]
    exact ⟨_, rfl, (hinv _).1, (hinv _).2.1, (hinv _).2.2.1, (hinv _).2.2.2.1,
      (hinv _).2.2.2.2⟩

/-- Witness for the amended C4: the concrete converging run of the C7
witness, whose single weight is `[1]`: one component, weights summing
to `1`. -/
theorem c4_amended_fit_shapes_weights_witness :
    ∃ p, ExpectationMaximizer.fit constOracle ⟨3, 1/2⟩ [[0]] [[0]] 1 = .ok p ∧
      p.means.length = (1 : ℤ).toNat ∧
      p.covariances.length = (1 : ℤ).toNat ∧
      p.weights.length = (1 : ℤ).toNat ∧
      p.weights.sum = 1 ∧ ∀ w ∈ p.weights, 0 ≤ w :=
  c4_amended_fit_shapes_weights constOracle ⟨3, 1/2⟩ [[0]] [[0]] 1
    (by simp) (by norm_num) (by norm_num) (by norm_num)
    (fun mean cov => ⟨fun _ => 1, rfl, fun x => by norm_num⟩)

/-- Claim C8: `expectation_step` is total and returns an
`n_samples × n_components` matrix (`n_components = len(means)`); it is the
per-sample raw responsibility row (`rawResp`, in which a
singular-covariance component contributes an all-zero column) normalized
per row, where rows with a nonzero pre-normalization sum are scaled to sum
to `1` and rows with an exactly-zero pre-normalization sum are left
untouched — hence, the raw entries being nonnegative (true mixture
weights, nonnegative densities), left all-zero. -/
theorem c8_expectation_step_degenerate_policy (g : GaussOracle) (data : Mat)
    (p : ModelParameters)
    (hw : ∀ w ∈ p.weights, 0 ≤ w)
    (hpdf : ∀ mean cov pdf, g.density mean cov = some pdf → ∀ y, 0 ≤ pdf y) :
    (expectation_step g data p).length = data.length ∧
    (∀ row ∈ expectation_step g data p, (row : List ℚ).length = p.means.length) ∧
    expectation_step g data p = data.map (fun x =>
      if (rawResp g p x).sum = 0 then rawResp g p x
      else (rawResp g p x).map (· / (rawResp g p x).sum)) ∧
    (∀ x ∈ data, (rawResp g p x).sum ≠ 0 →
      ((rawResp g p x).map (· / (rawResp g p x).sum)).sum = 1) ∧
    (∀ x ∈ data, (rawResp g p x).sum = 0 → ∀ r ∈ rawResp g p x, r = 0) ∧
    (∀ k, k < p.means.length →
      g.density (p.means.getD k []) (p.covariances.getD k []) = none →
      ∀ row ∈ expectation_step g data p, (row : List ℚ).getD k 0 = 0) := by
  have hmaps : expectation_step g data p = data.map (fun x =>
      if (rawResp g p x).sum = 0 then rawResp g p x
      else (rawResp g p x).map (· / (rawResp g p x).sum)) := by
    simp only [expectation_step, List.map_map]
    rfl
  refine ⟨?_, ?_, hmaps, ?_, ?_, ?_⟩
  · rw [hmaps, List.length_map]
  · intro row hrow
    rw [hmaps, List.mem_map] at hrow
    obtain ⟨x, _, rfl⟩ := hrow
    split
    · exact rawResp_length g p x
    · rw [List.length_map]
      exact rawResp_length g p x
  · intro x _ hsum
    rw [sum_map_div]
    exact div_self hsum
  · intro x _ hsum
    exact sum_eq_zero_of_nonneg _ (rawResp_nonneg g p x hw hpdf) hsum
  · intro k hk hden row hrow
    rw [hmaps, List.mem_map] at hrow
    obtain ⟨x, _, rfl⟩ := hrow
    have hraw : (rawResp g p x).getD k 0 = 0 := by
      rw [rawResp_getD g p x k hk, hden]
    split
    · exact hraw
    · rw [List.getD_eq_getElem _ _ (by rw [List.length_map, rawResp_length]; exact hk),
        List.getElem_map, ← List.getD_eq_getElem _ 0 (by rw [rawResp_length]; exact hk),
        hraw, zero_div]

/-- Witness for C8 on a concrete one-sample, one-component instance with
the constant density `1`: the output is `1 × 1` and the normalized row
sums to `1`. -/
theorem c8_expectation_step_degenerate_policy_witness :
    (expectation_step constOracle [[0]] ⟨[[0]], [[[1]]], [1], false, 0⟩).length = 1 ∧
    (∀ x ∈ ([[0]] : Mat),
      (rawResp constOracle ⟨[[0]], [[[1]]], [1], false, 0⟩ x).sum ≠ 0 →
      ((rawResp constOracle ⟨[[0]], [[[1]]], [1], false, 0⟩ x).map
        (· / (rawResp constOracle ⟨[[0]], [[[1]]], [1], false, 0⟩ x).sum)).sum = 1) := by
  have h := c8_expectation_step_degenerate_policy constOracle [[0]]
    ⟨[[0]], [[[1]]], [1], false, 0⟩
    (by
      intro w hw
      simp only [List.mem_cons, List.not_mem_nil, or_false] at hw
      subst hw
      norm_num)
    (by
      intro mean cov pdf h y
      simp only [constOracle] at h
      rw [← Option.some.inj h]
      norm_num)
  exact ⟨h.1, h.2.2.2.1⟩

end Amem
